import Mathlib

/-!
Verification of the PowGiverContract mining-job encoding logic
(src/src/contracts/PowGiverContract.ts) against its specification.

Buffers are modelled as `List Nat` (one entry per byte), strings as
`List Char`, bit sequences as `List Bool`.  Thrown JS errors are modelled
with `Except String`; functions the source calls that cannot throw stay
pure.
-/

set_option autoImplicit false

namespace PowGiver

/-! ## HexCodec: `parseHex` and its helper, Node hex decoding -/

/-- Value of a hexadecimal digit character, as Node's hex decoder accepts
them: `0-9`, `a-f`, `A-F`.  `none` for any other character. -/
def hexVal (c : Char) : Option Nat :=
  if '0' ≤ c ∧ c ≤ '9' then some (c.toNat - '0'.toNat)
  else if 'a' ≤ c ∧ c ≤ 'f' then some (c.toNat - 'a'.toNat + 10)
  else if 'A' ≤ c ∧ c ≤ 'F' then some (c.toNat - 'A'.toNat + 10)
  else none

/-- Whether a character is a valid hexadecimal digit. -/
def isHexChar (c : Char) : Bool :=
  (hexVal c).isSome

/-- Node's `Buffer.from(s, 'hex')`: decode two characters at a time; stop
(returning the bytes decoded so far) at the first pair containing an
invalid hex digit; a lone trailing character is dropped.  It never throws. -/
def nodeHexDecode : List Char → List Nat
  | a :: b :: rest =>
    match hexVal a, hexVal b with
    | some hi, some lo => (16 * hi + lo) :: nodeHexDecode rest
    | _, _ => []
  | _ => []

/-- First normalization step of `parseHex`: `src.startsWith('x')` strips one
leading `x`. -/
def stripX (s : List Char) : List Char :=
  match s with
  | [] => []
  | a :: rest => if a = 'x' then rest else a :: rest

/-- Second normalization step of `parseHex`: `src.startsWith('0x')` strips a
leading `0x`. -/
def strip0x (s : List Char) : List Char :=
  match s with
  | a :: b :: rest => if a = '0' ∧ b = 'x' then rest else a :: b :: rest
  | t => t

/-- Third normalization step of `parseHex`: a string of odd length gets a
single `0` prepended. -/
def padOdd (s : List Char) : List Char :=
  if s.length % 2 = 1 then '0' :: s else s

/-- `parseHex` from the source: strip an optional leading `x`, then an
optional leading `0x`, prepend `0` when the length is odd, then decode with
`Buffer.from(_, 'hex')`. -/
def parseHex (src : List Char) : List Nat :=
  nodeHexDecode (padOdd (strip0x (stripX src)))

/-- The normalization pipeline of `parseHex` (everything before the
`Buffer.from(_, 'hex')` call): strip `x`, strip `0x`, prepend `0` when the
length is odd. -/
def normalizedHex (src : List Char) : List Char :=
  padOdd (strip0x (stripX src))

/-- The length (in characters, always even) of the longest leading run of
valid hex-digit pairs of a string — the part of the input Node's hex
decoder actually consumes. -/
def validPairsLen : List Char → Nat
  | a :: b :: rest =>
    if isHexChar a && isHexChar b then 2 + validPairsLen rest else 0
  | _ => 0

/-! ## `padded`: the left-padding helper

The source allocates a zero buffer `res` of length `size` and runs
`res[i + (size - data.length)] = data[i]` for each `i`.  On a Node `Buffer`
(a `Uint8Array`), assignment at an out-of-range index — negative included —
is a silent no-op, which `bufWrite` models. -/

/-- Assignment `res[idx] = v` on a typed array: a no-op unless
`0 ≤ idx < res.length`. -/
def bufWrite (res : List Nat) (idx : Int) (v : Nat) : List Nat :=
  if 0 ≤ idx ∧ idx < (res.length : Int) then res.set idx.toNat v else res

/-- The loop of `padded`: write the bytes of `data` at consecutive indices
starting at `pos`. -/
def writeLoop (res : List Nat) (data : List Nat) (pos : Int) : List Nat :=
  match data with
  | [] => res
  | d :: ds => writeLoop (bufWrite res pos d) ds (pos + 1)

/-- `padded` from the source: allocate `size` zero bytes and copy `data`
starting at offset `size - data.length`. -/
def padded (data : List Nat) (size : Nat) : List Nat :=
  writeLoop (List.replicate size 0) data ((size : Int) - (data.length : Int))

/-! ## Addresses, messages and the job builders -/

/-- The part of the external `Address` type the source uses: a workchain
identifier and a 32-byte hash. -/
structure Address where
  workChain : Int
  hash : List Nat
deriving DecidableEq

/-- The part of the external `ExternalMessage` envelope the source
determines: destination address and binary body. -/
structure ExternalMessage where
  toAddress : Address
  body : List Nat
deriving DecidableEq

/-- Modelled from the spec: `createUInt32` lives in
`src/contracts/utils/createUInt32.ts`, which is not in the repository
snapshot; the spec describes it as "the 4-byte big-endian encoding of
`expiry`". -/
def createUInt32 (n : Nat) : List Nat :=
  [n / 2 ^ 24 % 256, n / 2 ^ 16 % 256, n / 2 ^ 8 % 256, n % 256]

/-- The ASCII bytes of `'Mine'` (`Buffer.from('Mine')`). -/
def mineOp : List Nat := [0x4D, 0x69, 0x6E, 0x65]

/-- The message of the `Error` thrown by both job builders on a non-zero
workchain (the spec's `UnsupportedWorkchainError`). -/
def workchainError : String := "Only walelts in basic workchain are supported"

/-- `createMiningJobHeader`: the fixed `[0x00, 0xF2]` prefix, the `Mine` op,
one zero byte (workchain + bounce), the big-endian expiry, the wallet hash. -/
def createMiningJobHeader (wallet : Address) (expiresSec : Nat) : List Nat :=
  [0x00, 0xF2] ++ mineOp ++ [0] ++ createUInt32 expiresSec ++ wallet.hash

/-- `createMiningJob`: guard on the basic workchain, then header ++ random
++ seed ++ random. -/
def createMiningJob (seed random : List Nat) (wallet : Address)
    (expiresSec : Nat) : Except String (List Nat) :=
  if wallet.workChain ≠ 0 then Except.error workchainError
  else Except.ok (createMiningJobHeader wallet expiresSec
    ++ random ++ seed ++ random)

/-- `Buffer.equals`: byte-for-byte equality. -/
def bufferEquals (a b : List Nat) : Bool :=
  a == b

/-- `checkMiningJobHash`: rebuild the job, hash it with the external
`sha256` primitive (a parameter here), and compare with the candidate. -/
def checkMiningJobHash (sha256 : List Nat → List Nat)
    (seed random : List Nat) (wallet : Address) (expiresSec : Nat)
    (hash : List Nat) : Except String Bool := do
  let job ← createMiningJob seed random wallet expiresSec
  pure (bufferEquals hash (sha256 job))

/-- `createMiningMessage`: guard on the basic workchain, then wrap the body
(`Mine` op, zero byte, expiry, wallet hash, random, seed, random — without
the `[0x00, 0xF2]` prefix) in an external message to the giver. -/
def createMiningMessage (giver : Address) (seed random : List Nat)
    (wallet : Address) (expiresSec : Nat) : Except String ExternalMessage :=
  if wallet.workChain ≠ 0 then Except.error workchainError
  else Except.ok ⟨giver,
    mineOp ++ [0] ++ createUInt32 expiresSec ++ wallet.hash
      ++ random ++ seed ++ random⟩

/-! ## Bit reader and `extractPowParamsFromState`

The `BitStringReader` comes from the external `ton` package; the spec
describes it in §4.2, so it is modelled from those words. -/

/-- A group of up to 8 bits interpreted as a byte, most significant bit
first (the order the bits are stored in). -/
def byteOfBits (bits : List Bool) : Nat :=
  bits.foldl (fun acc b => 2 * acc + (if b then 1 else 0)) 0

/-- Modelled from the spec: group a bit sequence into bytes of 8 bits "in
the same bit order as stored". -/
def bitsToBytes : List Bool → List Nat
  | [] => []
  | b :: rest => byteOfBits (List.take 8 (b :: rest)) :: bitsToBytes (List.drop 7 rest)
termination_by l => l.length
decreasing_by
  simp only [List.length_drop, List.length_cons]
  omega

/-- Modelled from the spec: the `ton` package's `BitStringReader`, a
read-only forward cursor over a fixed bit sequence. -/
structure BitStringReader where
  bits : List Bool
  cursor : Nat

/-- Modelled from the spec: `skip(nBits)` advances the cursor, failing when
it would pass the end of the sequence. -/
def BitStringReader.skip (r : BitStringReader) (n : Nat) :
    Option BitStringReader :=
  if r.cursor + n ≤ r.bits.length then some ⟨r.bits, r.cursor + n⟩ else none

/-- Modelled from the spec: `readBuffer(nBytes)` reads `nBytes * 8` bits at
the cursor as a byte buffer, failing on insufficient remaining bits. -/
def BitStringReader.readBuffer (r : BitStringReader) (nBytes : Nat) :
    Option (List Nat × BitStringReader) :=
  if r.cursor + nBytes * 8 ≤ r.bits.length then
    some (bitsToBytes (List.take (nBytes * 8) (r.bits.drop r.cursor)),
      ⟨r.bits, r.cursor + nBytes * 8⟩)
  else none

/-- `extractPowParamsFromState`: skip 32+32+256 bits, read 16 bytes of
seed, then 32 bytes of complexity. -/
def extractPowParamsFromState (bits : List Bool) :
    Option (List Nat × List Nat) :=
  match BitStringReader.skip ⟨bits, 0⟩ (32 + 32 + 256) with
  | none => none
  | some r1 =>
    match r1.readBuffer (128 / 8) with
    | none => none
    | some (seed, r2) =>
      match r2.readBuffer (256 / 8) with
      | none => none
      | some (complexity, _) => some (seed, complexity)

/-! ## Shared concrete values for closed statements -/

/-- The expected wire body of the concrete end-to-end example. -/
def c2body : List Nat :=
  [0x4D, 0x69, 0x6E, 0x65] ++ [0x00] ++ [0x3B, 0x9A, 0xCA, 0x00]
    ++ List.replicate 32 0x00 ++ List.replicate 16 0x11
    ++ List.replicate 16 0x22 ++ List.replicate 16 0x11

/-- A stand-in for the external hash primitive, used to instantiate
hash-parametric theorems at a concrete point. -/
def hashStub : List Nat → List Nat :=
  fun _ => [0]

/-! ## Helper lemmas about the padding loop -/

lemma bufWrite_length (res : List Nat) (idx : Int) (v : Nat) :
    (bufWrite res idx v).length = res.length := by
  unfold bufWrite
  split <;> simp

lemma writeLoop_length (data : List Nat) : ∀ (res : List Nat) (pos : Int),
    (writeLoop res data pos).length = res.length := by
  induction data with
  | nil => intro res pos; rfl
  | cons d ds ih => intro res pos; rw [writeLoop, ih, bufWrite_length]

lemma bufWrite_getElem (res : List Nat) (pos : Int) (d : Nat) (j : Nat) :
    (bufWrite res pos d)[j]? =
      if (j : Int) = pos ∧ j < res.length then some d else res[j]? := by
  unfold bufWrite
  split
  case isTrue hc =>
    by_cases hj : (j : Int) = pos
    · have hjt : j = pos.toNat := by omega
      subst hjt
      rw [if_pos ⟨hj, by omega⟩]
      exact List.getElem?_set_self (by omega)
    · rw [if_neg (fun hand => hj hand.1)]
      exact List.getElem?_set_ne (by omega)
  case isFalse hc =>
    rw [if_neg]
    rintro ⟨h1, h2⟩
    exact hc ⟨by omega, by omega⟩

lemma writeLoop_getElem (data : List Nat) : ∀ (res : List Nat) (pos : Int)
    (j : Nat), (writeLoop res data pos)[j]? =
      if pos ≤ (j : Int) ∧ (j : Int) < pos + (data.length : Int) ∧
          j < res.length then
        data[((j : Int) - pos).toNat]?
      else res[j]? := by
  induction data with
  | nil =>
    intro res pos j
    rw [writeLoop, if_neg]
    rintro ⟨h1, h2, h3⟩
    simp only [List.length_nil, Nat.cast_zero, Int.add_zero] at h2
    omega
  | cons d ds ih =>
    intro res pos j
    rw [writeLoop, ih, bufWrite_length, bufWrite_getElem]
    by_cases hmain : pos ≤ (j : Int) ∧
        (j : Int) < pos + (((d :: ds).length : Nat) : Int) ∧ j < res.length
    · rw [if_pos hmain]
      obtain ⟨h1, h2, h3⟩ := hmain
      simp only [List.length_cons] at h2
      by_cases hfst : (j : Int) = pos
      · rw [if_neg (by rintro ⟨ha, _, _⟩; omega)]
        rw [if_pos ⟨hfst, h3⟩]
        have hz : ((j : Int) - pos).toNat = 0 := by omega
        rw [hz, List.getElem?_cons_zero]
      · have hge : pos + 1 ≤ (j : Int) := by omega
        have hlt : (j : Int) < pos + 1 + (ds.length : Int) := by push_cast at h2 ⊢; omega
        rw [if_pos ⟨hge, hlt, h3⟩]
        have hidx : ((j : Int) - pos).toNat = ((j : Int) - (pos + 1)).toNat + 1 := by
          omega
        rw [hidx, List.getElem?_cons_succ]
    · rw [if_neg hmain]
      have hin : ¬(pos + 1 ≤ (j : Int) ∧ (j : Int) < pos + 1 + (ds.length : Int) ∧
          j < res.length) := by
        rintro ⟨ha, hb, hc2⟩
        exact hmain ⟨by omega, by simp only [List.length_cons]; push_cast; omega, hc2⟩
      rw [if_neg hin]
      have hw : ¬((j : Int) = pos ∧ j < res.length) := by
        rintro ⟨ha, hb⟩
        exact hmain ⟨by omega, by simp only [List.length_cons]; push_cast; omega, hb⟩
      rw [if_neg hw]

/-! ## Claims -/

/-- C1: for every seed, random, wallet in workchain 0 and expiry, the buffer
returned by `createMiningJob` is exactly the two bytes `[0x00, 0xF2]`
followed by the body `createMiningMessage` builds for the same arguments,
and that body is `Mine ++ 0x00 ++ expiry ++ wallet.hash ++ random ++ seed
++ random`. -/
theorem claim_c1 (seed random : List Nat) (giver wallet : Address)
    (expiresSec : Nat) (msg : ExternalMessage) (h : wallet.workChain = 0)
    (hm : createMiningMessage giver seed random wallet expiresSec = Except.ok msg) :
    msg.body = mineOp ++ [0] ++ createUInt32 expiresSec ++ wallet.hash
      ++ random ++ seed ++ random ∧
    createMiningJob seed random wallet expiresSec =
      Except.ok (0x00 :: 0xF2 :: msg.body) := by
  unfold createMiningMessage at hm
  rw [if_neg (by simp [h])] at hm
  injection hm with hm
  subst hm
  refine ⟨rfl, ?_⟩
  simp [createMiningJob, createMiningJobHeader, h]

/-- C4: for every wallet with a non-zero workchain, both `createMiningJob`
and `createMiningMessage` fail with the unsupported-workchain error and
return no buffer or message. -/
theorem claim_c4 (seed random : List Nat) (giver wallet : Address)
    (expiresSec : Nat) (h : wallet.workChain ≠ 0) :
    createMiningJob seed random wallet expiresSec =
      Except.error workchainError ∧
    createMiningMessage giver seed random wallet expiresSec =
      Except.error workchainError := by
  constructor <;> simp [createMiningJob, createMiningMessage, h]

/-- Witness for C4 at workchain 1. -/
theorem claim_c4_witness :
    createMiningJob [] [] ⟨1, []⟩ 0 = Except.error workchainError ∧
    createMiningMessage ⟨0, []⟩ [] [] ⟨1, []⟩ 0 =
      Except.error workchainError :=
  claim_c4 [] [] ⟨0, []⟩ ⟨1, []⟩ 0 (by decide)

/-- Witness for C1 at empty seed/random, expiry 0, empty wallet hash. -/
theorem claim_c1_witness :
    (ExternalMessage.mk ⟨-1, List.replicate 32 5⟩
        [0x4D, 0x69, 0x6E, 0x65, 0x00, 0x00, 0x00, 0x00, 0x00]).body =
      mineOp ++ [0] ++ createUInt32 0 ++ ([] : List Nat)
        ++ [] ++ [] ++ [] ∧
    createMiningJob [] [] ⟨0, []⟩ 0 =
      Except.ok (0x00 :: 0xF2 ::
        (ExternalMessage.mk ⟨-1, List.replicate 32 5⟩
          [0x4D, 0x69, 0x6E, 0x65, 0x00, 0x00, 0x00, 0x00, 0x00]).body) :=
  claim_c1 [] [] ⟨-1, List.replicate 32 5⟩ ⟨0, []⟩ 0 _ rfl rfl

/-- C2: the concrete end-to-end example — wallet hash of 32 zero bytes in
workchain 0, expiry 1000000000, random 16 bytes of 0x11, seed 16 bytes of
0x22 — gives the expected 89-byte wire body and the same bytes preceded by
`0x00 0xF2` (91 bytes) as the hashing job. -/
theorem claim_c2 :
    createMiningMessage ⟨-1, List.replicate 32 5⟩ (List.replicate 16 0x22)
        (List.replicate 16 0x11) ⟨0, List.replicate 32 0x00⟩ 1000000000 =
      Except.ok ⟨⟨-1, List.replicate 32 5⟩, c2body⟩ ∧
    c2body.length = 89 ∧
    createMiningJob (List.replicate 16 0x22) (List.replicate 16 0x11)
        ⟨0, List.replicate 32 0x00⟩ 1000000000 =
      Except.ok (0x00 :: 0xF2 :: c2body) ∧
    (0x00 :: 0xF2 :: c2body).length = 91 :=
  ⟨rfl, rfl, rfl, rfl⟩

/-- C5: for workchain-0 wallets, `checkMiningJobHash` returns `ok` of the
byte-for-byte comparison between the candidate hash and the external
SHA-256 of the rebuilt job — true exactly on equality, false on a
mismatch, never an error. -/
theorem claim_c5 (sha256 : List Nat → List Nat) (seed random hash : List Nat)
    (wallet : Address) (expiresSec : Nat) (job : List Nat)
    (h : wallet.workChain = 0)
    (hj : createMiningJob seed random wallet expiresSec = Except.ok job) :
    checkMiningJobHash sha256 seed random wallet expiresSec hash =
      Except.ok (bufferEquals hash (sha256 job)) ∧
    (bufferEquals hash (sha256 job) = true ↔ hash = sha256 job) := by
  refine ⟨?_, ?_⟩
  · unfold checkMiningJobHash
    rw [hj]
    rfl
  · simp [bufferEquals]

/-- Witness for C5 at empty inputs and a stub hash function. -/
theorem claim_c5_witness :
    checkMiningJobHash hashStub [] [] ⟨0, []⟩ 0 [] =
      Except.ok (bufferEquals []
        (hashStub [0x00, 0xF2, 0x4D, 0x69, 0x6E, 0x65, 0x00, 0x00, 0x00, 0x00, 0x00])) ∧
    (bufferEquals []
        (hashStub [0x00, 0xF2, 0x4D, 0x69, 0x6E, 0x65, 0x00, 0x00, 0x00, 0x00, 0x00]) = true ↔
      ([] : List Nat) =
        hashStub [0x00, 0xF2, 0x4D, 0x69, 0x6E, 0x65, 0x00, 0x00, 0x00, 0x00, 0x00]) :=
  claim_c5 hashStub [] [] [] ⟨0, []⟩ 0 _ rfl rfl

/-- C9: `parseHex` is invariant under the accepted prefix markers and the
odd-length normalization. -/
theorem claim_c9 :
    parseHex ("x1a2b".data) = parseHex ("0x1a2b".data) ∧
    parseHex ("0x1a2b".data) = parseHex ("1a2b".data) ∧
    parseHex ("abc".data) = parseHex ("0abc".data) :=
  ⟨rfl, rfl, rfl⟩

/-- C10: `createMiningJob` does no length validation on seed or random:
with a 32-byte wallet hash in workchain 0 it succeeds for any lengths and
the job is exactly `43 + len seed + 2 * len random` bytes. -/
theorem claim_c10 (seed random : List Nat) (wallet : Address)
    (expiresSec : Nat) (h : wallet.workChain = 0)
    (hh : wallet.hash.length = 32) :
    createMiningJob seed random wallet expiresSec =
      Except.ok (createMiningJobHeader wallet expiresSec
        ++ random ++ seed ++ random) ∧
    (createMiningJobHeader wallet expiresSec
        ++ random ++ seed ++ random).length =
      43 + seed.length + 2 * random.length := by
  constructor
  · simp [createMiningJob, h]
  · simp [createMiningJobHeader, mineOp, createUInt32, hh]
    omega

/-- Witness for C10 with a 1-byte seed and a 2-byte random. -/
theorem claim_c10_witness :
    createMiningJob [1] [2, 3] ⟨0, List.replicate 32 0⟩ 5 =
      Except.ok (createMiningJobHeader ⟨0, List.replicate 32 0⟩ 5
        ++ [2, 3] ++ [1] ++ [2, 3]) ∧
    (createMiningJobHeader ⟨0, List.replicate 32 0⟩ 5
        ++ [2, 3] ++ [1] ++ [2, 3]).length = 43 + 1 + 2 * 2 :=
  claim_c10 [1] [2, 3] ⟨0, List.replicate 32 0⟩ 5 rfl (by simp)

/-- Counterexample to C6: `padded` on a 3-byte input with target size 2
returns the buffer `[2, 3]` — the last two bytes of the input — instead of
failing: out-of-range writes on a typed array are silent no-ops, so the
oversize case silently truncates. -/
theorem claim_c6_cex : padded [1, 2, 3] 2 = [2, 3] := by decide

/-- Counterexample to C7: `parseHex` on the string `zz`, which contains no
valid hex digit, returns the empty buffer instead of failing: Node's
`Buffer.from(_, 'hex')` stops at the first invalid pair and never throws. -/
theorem claim_c7_cex : parseHex ("zz".data) = [] := by decide

/-- C6 amended: for `len(b) > n`, `padded b n` does not fail — it silently
truncates, returning a buffer of length `n` equal to the last `n` bytes of
`b` (writes at negative offsets are silent no-ops on a typed array). -/
theorem claim_c6_amended (b : List Nat) (n : Nat) (h : n < b.length) :
    padded b n = b.drop (b.length - n) ∧ (padded b n).length = n := by
  have hlen : (padded b n).length = n := by
    unfold padded
    rw [writeLoop_length]
    simp
  refine ⟨?_, hlen⟩
  apply List.ext_getElem?
  intro j
  unfold padded
  rw [writeLoop_getElem]
  by_cases hj : j < n
  · rw [if_pos ⟨by omega, by omega,
      by simp only [List.length_replicate]; omega⟩]
    rw [List.getElem?_drop]
    rw [show ((j : Int) - ((n : Int) - (b.length : Int))).toNat =
      (b.length - n) + j from by omega]
  · rw [if_neg (by rintro ⟨h1, h2, hr⟩; simp only [List.length_replicate] at hr; omega)]
    rw [List.getElem?_eq_none (by simp only [List.length_replicate]; omega),
      List.getElem?_eq_none (by simp only [List.length_drop]; omega)]

/-- Witness for the amended C6 on a 3-byte buffer padded to size 2. -/
theorem claim_c6_witness :
    padded [1, 2, 3] 2 = List.drop 1 [1, 2, 3] ∧
    (padded [1, 2, 3] 2).length = 2 :=
  claim_c6_amended [1, 2, 3] 2 (by decide)

/-- C8: for `len(b) ≤ n`, `padded b n` has length exactly `n`, its last
`len(b)` bytes are `b`, and the preceding bytes are all zero. -/
theorem claim_c8 (b : List Nat) (n : Nat) (h : b.length ≤ n) :
    padded b n = List.replicate (n - b.length) 0 ++ b ∧
    (padded b n).length = n := by
  have hlen : (padded b n).length = n := by
    unfold padded
    rw [writeLoop_length]
    simp
  refine ⟨?_, hlen⟩
  apply List.ext_getElem?
  intro j
  unfold padded
  rw [writeLoop_getElem]
  by_cases h1 : j < n - b.length
  · rw [if_neg (by rintro ⟨ha, hb, hc⟩; omega)]
    rw [List.getElem?_append_left (by simp only [List.length_replicate]; omega)]
    rw [List.getElem?_replicate_of_lt (by omega),
      List.getElem?_replicate_of_lt h1]
  · by_cases h2 : j < n
    · rw [if_pos ⟨by omega, by omega,
        by simp only [List.length_replicate]; omega⟩]
      rw [List.getElem?_append_right (by simp only [List.length_replicate]; omega)]
      simp only [List.length_replicate]
      rw [show ((j : Int) - ((n : Int) - (b.length : Int))).toNat =
        j - (n - b.length) from by omega]
    · rw [if_neg (by rintro ⟨ha, hb, hr⟩; simp only [List.length_replicate] at hr; omega)]
      rw [List.getElem?_eq_none (by simp only [List.length_replicate]; omega),
        List.getElem?_eq_none
          (by simp only [List.length_append, List.length_replicate]; omega)]

/-- Witness for C8 on a 2-byte buffer padded to size 5. -/
theorem claim_c8_witness :
    padded [7, 8] 5 = List.replicate 3 0 ++ [7, 8] ∧
    (padded [7, 8] 5).length = 5 :=
  claim_c8 [7, 8] 5 (by decide)

/-! ## Helper lemmas about hex decoding and bit extraction -/

lemma validPairs_all_hex : ∀ (l : List Char),
    ∀ ch ∈ l.take (validPairsLen l), isHexChar ch = true
  | [] => by simp [validPairsLen]
  | [a] => by simp [validPairsLen]
  | a :: b :: rest => by
    intro ch hch
    rw [validPairsLen] at hch
    by_cases hab : (isHexChar a && isHexChar b) = true
    · rw [if_pos hab] at hch
      rw [show 2 + validPairsLen rest = validPairsLen rest + 1 + 1 from by omega,
        List.take_succ_cons, List.take_succ_cons] at hch
      simp only [List.mem_cons] at hch
      rcases hch with rfl | rfl | hch
      · exact ((Bool.and_eq_true _ _).mp hab).1
      · exact ((Bool.and_eq_true _ _).mp hab).2
      · exact validPairs_all_hex rest ch hch
    · rw [if_neg hab] at hch
      simp at hch

lemma nodeHexDecode_eq_take : ∀ (l : List Char),
    nodeHexDecode (l.take (validPairsLen l)) = nodeHexDecode l
  | [] => rfl
  | [a] => rfl
  | a :: b :: rest => by
    by_cases hab : (isHexChar a && isHexChar b) = true
    · obtain ⟨ha, hb⟩ : isHexChar a = true ∧ isHexChar b = true := by
        simpa using hab
      rw [isHexChar] at ha hb
      obtain ⟨hi, hha⟩ := Option.isSome_iff_exists.mp ha
      obtain ⟨lo, hhb⟩ := Option.isSome_iff_exists.mp hb
      rw [validPairsLen, if_pos hab,
        show 2 + validPairsLen rest = validPairsLen rest + 1 + 1 from by omega,
        List.take_succ_cons, List.take_succ_cons,
        nodeHexDecode, nodeHexDecode, hha, hhb,
        nodeHexDecode_eq_take rest]
    · rw [validPairsLen, if_neg hab]
      rw [nodeHexDecode]
      cases hca : hexVal a with
      | none => rfl
      | some hi =>
        cases hcb : hexVal b with
        | none => rfl
        | some lo => exact absurd (by simp [isHexChar, hca, hcb]) hab

lemma nodeHexDecode_two_mul_length : ∀ (l : List Char),
    2 * (nodeHexDecode l).length = validPairsLen l
  | [] => rfl
  | [a] => rfl
  | a :: b :: rest => by
    by_cases hab : (isHexChar a && isHexChar b) = true
    · obtain ⟨ha, hb⟩ : isHexChar a = true ∧ isHexChar b = true := by
        simpa using hab
      rw [isHexChar] at ha hb
      obtain ⟨hi, hha⟩ := Option.isSome_iff_exists.mp ha
      obtain ⟨lo, hhb⟩ := Option.isSome_iff_exists.mp hb
      rw [validPairsLen, if_pos hab, nodeHexDecode, hha, hhb]
      have := nodeHexDecode_two_mul_length rest
      simp only [List.length_cons]
      omega
    · rw [validPairsLen, if_neg hab, nodeHexDecode]
      cases hca : hexVal a with
      | none => rfl
      | some hi =>
        cases hcb : hexVal b with
        | none => rfl
        | some lo => exact absurd (by simp [isHexChar, hca, hcb]) hab

lemma validPairsLen_maximal : ∀ (l : List Char),
    l.length ≤ validPairsLen l + 1 ∨
    ∃ a b t, l.drop (validPairsLen l) = a :: b :: t ∧
      (isHexChar a = false ∨ isHexChar b = false)
  | [] => Or.inl (by simp [validPairsLen])
  | [a] => Or.inl (by simp [validPairsLen])
  | a :: b :: rest => by
    by_cases hab : (isHexChar a && isHexChar b) = true
    · rw [validPairsLen, if_pos hab,
        show 2 + validPairsLen rest = validPairsLen rest + 1 + 1 from by omega,
        List.drop_succ_cons, List.drop_succ_cons]
      rcases validPairsLen_maximal rest with h | h
      · left
        simp only [List.length_cons]
        omega
      · right
        exact h
    · rw [validPairsLen, if_neg hab]
      right
      refine ⟨a, b, rest, rfl, ?_⟩
      cases hha : isHexChar a with
      | false => exact Or.inl rfl
      | true =>
        cases hhb : isHexChar b with
        | false => exact Or.inr rfl
        | true => exact absurd (by simp [hha, hhb]) hab

lemma bitsToBytes_length (l : List Bool) :
    (bitsToBytes l).length = (l.length + 7) / 8 := by
  induction l using bitsToBytes.induct with
  | case1 => simp [bitsToBytes]
  | case2 b rest ih =>
    rw [bitsToBytes]
    simp only [List.length_cons, ih, List.length_drop]
    omega

lemma extract_eq (bits : List Bool) (h : 704 ≤ bits.length) :
    extractPowParamsFromState bits =
      some (bitsToBytes ((bits.drop 320).take 128),
        bitsToBytes ((bits.drop 448).take 256)) := by
  have h1 : BitStringReader.skip ⟨bits, 0⟩ (32 + 32 + 256) =
      some ⟨bits, 320⟩ := by
    unfold BitStringReader.skip
    rw [if_pos (by simp; omega)]
  have h2 : BitStringReader.readBuffer ⟨bits, 320⟩ (128 / 8) =
      some (bitsToBytes ((bits.drop 320).take 128), ⟨bits, 448⟩) := by
    unfold BitStringReader.readBuffer
    rw [if_pos (by simp; omega)]
  have h3 : BitStringReader.readBuffer ⟨bits, 448⟩ (256 / 8) =
      some (bitsToBytes ((bits.drop 448).take 256), ⟨bits, 704⟩) := by
    unfold BitStringReader.readBuffer
    rw [if_pos (by simp; omega)]
  unfold extractPowParamsFromState
  rw [h1]
  dsimp only
  rw [h2]
  dsimp only
  rw [h3]

/-- C3: on a bit sequence of at least 704 bits, the extraction skips the
first 320 bits and returns bits [320, 448) as the 16-byte seed and bits
[448, 704) as the 32-byte complexity, in stored bit order. -/
theorem claim_c3 (a s c rest : List Bool) (ha : a.length = 320)
    (hs : s.length = 128) (hc : c.length = 256) :
    extractPowParamsFromState (a ++ s ++ c ++ rest) =
      some (bitsToBytes s, bitsToBytes c) ∧
    (bitsToBytes s).length = 16 ∧ (bitsToBytes c).length = 32 := by
  refine ⟨?_, ?_, ?_⟩
  · rw [extract_eq _ (by simp [ha, hs, hc]; omega)]
    have e1 : (List.drop 320 (a ++ s ++ c ++ rest)).take 128 = s := by
      rw [show a ++ s ++ c ++ rest = a ++ (s ++ (c ++ rest)) from by
        simp [List.append_assoc]]
      rw [List.drop_left' ha, List.take_left' hs]
    have e2 : (List.drop 448 (a ++ s ++ c ++ rest)).take 256 = c := by
      rw [show a ++ s ++ c ++ rest = (a ++ s) ++ (c ++ rest) from by
        simp [List.append_assoc]]
      rw [List.drop_left' (by rw [List.length_append, ha, hs]),
        List.take_left' hc]
    rw [e1, e2]
  · rw [bitsToBytes_length, hs]
  · rw [bitsToBytes_length, hc]

/-- Witness for C3: 320 padding bits, an all-ones seed region, an all-zero
complexity region. -/
theorem claim_c3_witness :
    extractPowParamsFromState (List.replicate 320 false ++
        List.replicate 128 true ++ List.replicate 256 false ++ []) =
      some (bitsToBytes (List.replicate 128 true),
        bitsToBytes (List.replicate 256 false)) ∧
    (bitsToBytes (List.replicate 128 true)).length = 16 ∧
    (bitsToBytes (List.replicate 256 false)).length = 32 :=
  claim_c3 (List.replicate 320 false) (List.replicate 128 true)
    (List.replicate 256 false) [] (by rw [List.length_replicate])
    (by rw [List.length_replicate]) (by rw [List.length_replicate])

/-- C7 amended: `parseHex` never fails on any input; after the
normalization (strip `x`/`0x`, prepend `0` when odd) the result is exactly
the decoding of the longest leading run of valid hex pairs of the
normalized string — that run is valid hex, contributes one byte per pair,
and is maximal (what follows is at most one stray character or a pair
containing an invalid hex digit, all silently dropped). -/
theorem claim_c7_amended (src : List Char) :
    parseHex src =
      nodeHexDecode ((normalizedHex src).take
        (validPairsLen (normalizedHex src))) ∧
    (∀ ch ∈ (normalizedHex src).take (validPairsLen (normalizedHex src)),
      isHexChar ch = true) ∧
    2 * (parseHex src).length = validPairsLen (normalizedHex src) ∧
    ((normalizedHex src).length ≤ validPairsLen (normalizedHex src) + 1 ∨
      ∃ a b t, (normalizedHex src).drop (validPairsLen (normalizedHex src)) =
          a :: b :: t ∧ (isHexChar a = false ∨ isHexChar b = false)) := by
  have h1 : parseHex src = nodeHexDecode (normalizedHex src) := rfl
  refine ⟨?_, validPairs_all_hex _, ?_, validPairsLen_maximal _⟩
  · rw [h1, nodeHexDecode_eq_take]
  · rw [h1, nodeHexDecode_two_mul_length]

end PowGiver
